import Mathlib

/-!
Verification of the case/control matching engine of match_controls_forPlot.py.

The Python program matches "case" samples to "control" samples one-to-one.
Its algorithmic core consists of:
  * a per-case compatibility filter over the control pool driven by a list of
    match conditions (mode range with a numeric tolerance, or exact equality),
    lines 344-386 of the source (function match_samples);
  * orderDict (lines 184-226): per-case insertion sort of the compatible
    control list, ascending by a frequency map;
  * order_keys (lines 232-261): insertion sort of the case identifiers,
    descending by the size of their compatible-control list;
  * stable_marriage (lines 264-305): a proposal loop over a free-case stack,
    producing a control-to-case assignment dictionary.

Python dictionaries are embedded as insertion-ordered association lists
(List (String by-pairs)); dictionary lookup is the first matching key and
value assignment on a present key replaces the value in place.  Python lists
that are consumed by pop() are embedded as Lean lists popped at the end via
getLastD / dropLast.  The free-key stack of stable_marriage is pushed and
popped at the end in Python; here it is represented head-first (the Lean list
is the reverse of the Python list), so pop is head and push is cons.
Numeric cell values are embedded as rationals.
-/

/-- Dictionary lookup on an association list: first entry whose key matches,
mirroring Python dict indexing (keys are unique in an actual dict). -/
def lookupL {α : Type} (k : String) : List (String × α) → Option α
  | [] => none
  | p :: rest => if p.1 = k then some p.2 else lookupL k rest

/-- Dictionary value assignment on a present key: replaces the value of the
first entry with that key, keeping the entry position, mirroring Python
"d[k] = v" for a key already present.  Leaves the list unchanged when the key
is absent (the matcher only updates present keys). -/
def updateL {α : Type} (k : String) (v : α) : List (String × α) → List (String × α)
  | [] => []
  | p :: rest => if p.1 = k then (k, v) :: rest else p :: updateL k v rest

/-- Python-style stable insertion into a sorted list, as written in orderDict
(lines 210-220) and order_keys (lines 251-259) of the source: scan left to
right and insert v immediately before the first element x with q x v; if no
such element exists, append at the end.  q x v reads "v must come before x". -/
def pyInsert (q : String → String → Bool) (v : String) : List String → List String
  | [] => [v]
  | x :: xs => if q x v then v :: x :: xs else x :: pyInsert q v xs

/-- Source orderDict inner loop (lines 207-222): insertion sort of one list,
ascending by the frequency map f; an element is inserted before the first
element of strictly greater frequency, so ties keep input order. -/
def orderList (f : String → Nat) (l : List String) : List String :=
  l.foldl (fun acc v => pyInsert (fun x w => decide (f w < f x)) v acc) []

/-- Source orderDict (lines 184-226): returns a copy of the dictionary in
which every value list has been insertion-sorted ascending by value_frequency. -/
def orderDict (dictionary : List (String × List String))
    (value_frequency : String → Nat) : List (String × List String) :=
  dictionary.map fun p => (p.1, orderList value_frequency p.2)

/-- Length of the list stored under a key, defaulting to 0 for absent keys;
this is len(dictionary[key]) of the source for present keys. -/
def lenD (d : List (String × List String)) (k : String) : Nat :=
  ((lookupL k d).getD []).length

/-- Source order_keys (lines 232-261): insertion sort of the dictionary keys,
descending by the length of the associated list; a key is inserted before the
first key of strictly smaller length, so ties keep dictionary insertion
order.  The result is consumed as a stack popped from the end. -/
def order_keys (dictionary : List (String × List String)) : List String :=
  dictionary.foldl
    (fun acc p => pyInsert (fun x w => decide (lenD dictionary x < lenD dictionary w)) p.1 acc) []

/-- State of the stable_marriage loop: the working preference dictionary
(destructively popped), the free-key stack (head = top of stack, i.e. the end
of the Python list), and the growing control-to-case match dictionary. -/
structure SMState where
  dict : List (String × List String)
  free : List String
  matched : List (String × String)
deriving Repr

/-- One iteration body of the stable_marriage while loop (source lines
291-304), after the key has been popped from the free stack:
if the key's preference list is empty the key is dropped (continue);
otherwise the last entry is popped from its list; an unassigned entry is
assigned to the key; an assigned entry is reassigned only when the proposing
key has a strictly smaller pref_counts_case value than the incumbent, which
is then pushed back on the free stack; otherwise the proposer is pushed back. -/
def smStep (pref_counts_case : String → Nat) (key : String)
    (dict : List (String × List String)) (free : List String)
    (m : List (String × String)) : SMState :=
  let prefs := (lookupL key dict).getD []
  if prefs.isEmpty then ⟨dict, free, m⟩
  else
    let entry := prefs.getLastD ""
    let dict' := updateL key prefs.dropLast dict
    match lookupL entry m with
    | none => ⟨dict', free, m ++ [(entry, key)]⟩
    | some key_in_use =>
      if pref_counts_case key < pref_counts_case key_in_use then
        ⟨dict', key_in_use :: free, updateL entry key m⟩
      else
        ⟨dict', key :: free, m⟩

/-- Source stable_marriage while loop (lines 290-305), with explicit fuel.
Every iteration pops one key from the free stack and runs smStep; the loop
ends when the stack is empty, returning the match dictionary together with
the final (consumed) working preference dictionary. -/
def smLoop (pref_counts_case : String → Nat) :
    Nat → List (String × List String) → List String → List (String × String) →
    Option (List (String × String) × List (String × List String))
  | _, dict, [], m => some (m, dict)
  | 0, _, _ :: _, _ => none
  | fuel + 1, dict, key :: free, m =>
    let s := smStep pref_counts_case key dict free m
    smLoop pref_counts_case fuel s.dict s.free s.matched

/-- Total length of all value lists of the dictionary. -/
def sumLens (d : List (String × List String)) : Nat :=
  (d.map fun p => p.2.length).sum

/-- One full run of the stable_marriage loop: the free stack is initialised
with order_keys, popped from the end (hence the reverse in this head-first
embedding), and the fuel is sufficient for the loop to finish (proved below). -/
def sm_run (dictionary_pref : List (String × List String))
    (pref_counts_case : String → Nat) :
    Option (List (String × String) × List (String × List String)) :=
  smLoop pref_counts_case (sumLens dictionary_pref + (order_keys dictionary_pref).length)
    dictionary_pref (order_keys dictionary_pref).reverse []

/-- Source stable_marriage (lines 264-305).  The parameter pref_counts_cont
appears in the source signature but is never read by the function body; only
pref_counts_case is consulted, in the displacement comparison of line 300. -/
def stable_marriage (dictionary_pref : List (String × List String))
    (pref_counts_cont pref_counts_case : String → Nat) : List (String × String) :=
  ((sm_run dictionary_pref pref_counts_case).map Prod.fst).getD []

section MatchSamples

/-- Cell value of a metadata column: a number or a non-numeric string.
Numbers are embedded as rationals. -/
inductive Value where
  | num (q : ℚ)
  | str (s : String)
deriving DecidableEq, Repr

/-- Numeric parse of a cell value, the embedding of Python float(x) /
pandas to_numeric: succeeds exactly on numeric values. -/
def toNum : Value → Option ℚ
  | .num q => some q
  | .str _ => none

/-- One sample row: its identifier and its column values. -/
structure Record where
  id : String
  vals : String → Value

/-- One line of the match-condition file: mode range carries the column and
the tolerance field, any other mode compares the column for exact equality
(source lines 352-385 branch on whether the first field is the string range). -/
inductive Cond where
  | range (column : String) (tol : Value)
  | exact (column : String)

/-- Fatal errors of the matching run, the embedding of the sys.exit calls at
source lines 363, 369 and 375. -/
inductive MErr where
  | invalidNumber (v : Value)
  | columnType (column : String)
deriving DecidableEq, Repr

/-- One condition applied to the current control pool of one case (source
lines 352-385).  Mode range: the case's value and the tolerance must parse as
numbers, then the whole remaining pool column must parse (pandas to_numeric),
each failure aborting the run; the survivors are the controls whose value
lies in the closed interval of radius tolerance around the case's value.
Other modes keep the controls whose column value equals the case's. -/
def condStep (caseRow : String → Value) (pool : List Record) :
    Cond → Except MErr (List Record)
  | .exact column => .ok (pool.filter fun r => decide (r.vals column = caseRow column))
  | .range column tol =>
    match toNum (caseRow column) with
    | none => .error (.invalidNumber (caseRow column))
    | some row_num =>
      match toNum tol with
      | none => .error (.invalidNumber tol)
      | some fnum =>
        if pool.all fun r => (toNum (r.vals column)).isSome then
          .ok (pool.filter fun r =>
            match toNum (r.vals column) with
            | some v => decide (row_num - fnum ≤ v ∧ v ≤ row_num + fnum)
            | none => false)
        else .error (.columnType column)

/-- Successive application of all conditions to a case's control pool
(the for-loop of source lines 352-385); each condition narrows the pool of
the previous one, and the first fatal error aborts. -/
def filterConds (caseRow : String → Value) (conds : List Cond)
    (pool : List Record) : Except MErr (List Record) :=
  conds.foldlM (fun acc c => condStep caseRow acc c) pool

/-- Construction of case_dictionary (source lines 344-386): the cases are
processed in order; for each one the full control pool is filtered through
all conditions and the identifiers of the survivors are recorded; the first
fatal error aborts the whole run. -/
def buildCaseDict (cases controls : List Record) (conds : List Cond) :
    Except MErr (List (String × List String)) :=
  match cases with
  | [] => .ok []
  | c :: rest =>
    match filterConds c.vals conds controls with
    | .error e => .error e
    | .ok pool =>
      match buildCaseDict rest controls conds with
      | .error e => .error e
      | .ok d => .ok ((c.id, pool.map Record.id) :: d)

/-- control_match_count_dictionary (source lines 392-395): for each control,
how many case lists it appears in (each case's list holds distinct ids, so
counting occurrences equals counting cases). -/
def controlCnt (d : List (String × List String)) (k : String) : Nat :=
  (d.map fun p => p.2.count k).sum

/-- case_match_count_dictionary (source line 404): the size of each case's
compatible-control set. -/
def caseCnt (d : List (String × List String)) (c : String) : Nat :=
  lenD d c

/-- Core of source match_samples (lines 344-419): build the compatibility
dictionary and the two count dictionaries, rank each case's list with
orderDict, and run stable_marriage on the result. -/
def match_samples (cases controls : List Record) (conds : List Cond) :
    Except MErr (List (String × String)) :=
  (buildCaseDict cases controls conds).map fun d =>
    stable_marriage (orderDict d (controlCnt d)) (controlCnt d) (caseCnt d)

end MatchSamples

section HeapModel

/-!
Reference-level embedding of the stable_marriage call site (source lines
416-420).  Python list objects live on a heap; a dictionary maps keys to
references (cell indices) of list objects.  The dict.copy() of line 419 is a
shallow copy: it duplicates the key table but not the list objects, so the
copy and the original reference the same cells.  The pops of stable_marriage
write through those shared references.
-/

/-- Heap of Python list objects: cell r holds the list it currently contains. -/
def Heap : Type := List (List String)

/-- Dereference a cell (out-of-range reads give the empty list; the matcher
only ever dereferences valid references). -/
def getCell (h : Heap) (r : Nat) : List String := (List.get? h r).getD []

/-- Destructive write to a cell, the effect of list.pop() on the object. -/
def setCell (h : Heap) (r : Nat) (l : List String) : Heap := List.set h r l

/-- A Python dict whose values are references to list cells. -/
def HDict : Type := List (String × Nat)

/-- Python dict.copy() (source line 419): a new key table containing the very
same list references — the lists themselves are shared with the original. -/
def dict_copy (d : HDict) : HDict := d

/-- The preference lists a holder of the dict d sees through its references
into the heap h. -/
def hView (d : HDict) (h : Heap) : List (String × List String) :=
  d.map fun p => (p.1, getCell h p.2)

/-- Reference-level version of smStep: identical control flow, but the pop of
the preference list is a write through the shared cell reference. -/
def smStepH (pref_counts_case : String → Nat) (key : String) (dict : HDict)
    (h : Heap) (free : List String) (m : List (String × String)) :
    Heap × List String × List (String × String) :=
  match lookupL key dict with
  | none => (h, free, m)
  | some r =>
    let prefs := getCell h r
    if prefs.isEmpty then (h, free, m)
    else
      let entry := prefs.getLastD ""
      let h' := setCell h r prefs.dropLast
      match lookupL entry m with
      | none => (h', free, m ++ [(entry, key)])
      | some key_in_use =>
        if pref_counts_case key < pref_counts_case key_in_use then
          (h', key_in_use :: free, updateL entry key m)
        else
          (h', key :: free, m)

/-- Reference-level stable_marriage loop. -/
def smLoopH (pref_counts_case : String → Nat) :
    Nat → HDict → Heap → List String → List (String × String) →
    Option (List (String × String) × Heap)
  | _, _, h, [], m => some (m, h)
  | 0, _, _, _ :: _, _ => none
  | fuel + 1, dict, h, key :: free, m =>
    let s := smStepH pref_counts_case key dict h free m
    smLoopH pref_counts_case fuel dict s.1 s.2.1 s.2.2

/-- Reference-level stable_marriage: the argument d is the (shallow) copy the
caller passes at line 419; the preference lists are read and written through
the heap cells d references. -/
def stable_marriageH (d : HDict) (h : Heap)
    (pref_counts_cont pref_counts_case : String → Nat) :
    Option (List (String × String) × Heap) :=
  smLoopH pref_counts_case
    (sumLens (hView d h) + (order_keys (hView d h)).length)
    d h (order_keys (hView d h)).reverse []

end HeapModel

/-! ### Association-list lemmas -/

theorem lookupL_eq_none {α : Type} (k : String) :
    ∀ m : List (String × α), lookupL k m = none ↔ k ∉ m.map Prod.fst
  | [] => by simp [lookupL]
  | p :: rest => by
    by_cases h : p.1 = k
    · simp [lookupL, h]
    · simp [lookupL, h, lookupL_eq_none k rest, Ne.symm h]

theorem lookupL_mem {α : Type} (k : String) (v : α) :
    ∀ m : List (String × α), lookupL k m = some v → (k, v) ∈ m
  | p :: rest, h => by
    by_cases hp : p.1 = k
    · simp only [lookupL, hp, if_true, Option.some.injEq] at h
      subst h
      rw [← hp]
      exact List.mem_cons_self _ _
    · simp only [lookupL, hp, if_false] at h
      exact List.mem_cons_of_mem _ (lookupL_mem k v rest h)

theorem lookupL_isSome {α : Type} (k : String) (m : List (String × α)) :
    (lookupL k m).isSome ↔ k ∈ m.map Prod.fst := by
  rcases h : lookupL k m with _ | v
  · simp [(lookupL_eq_none k m).1 h]
  · simp only [Option.isSome_some, true_iff]
    exact List.mem_map.2 ⟨(k, v), lookupL_mem k v m h, rfl⟩

theorem lookupL_split {α : Type} (k : String) (v : α) :
    ∀ m : List (String × α), lookupL k m = some v →
      ∃ m₁ m₂, m = m₁ ++ (k, v) :: m₂ ∧ (∀ p ∈ m₁, p.1 ≠ k) ∧
        ∀ w, updateL k w m = m₁ ++ (k, w) :: m₂
  | p :: rest, h => by
    by_cases hp : p.1 = k
    · simp only [lookupL, hp, if_true, Option.some.injEq] at h
      subst h
      refine ⟨[], rest, ?_, by simp, fun w => ?_⟩
      · simp [← hp]
      · simp [updateL, hp]
    · simp only [lookupL, hp, if_false] at h
      obtain ⟨m₁, m₂, hm, hne, hupd⟩ := lookupL_split k v rest h
      exact ⟨p :: m₁, m₂, by simp [hm], by simpa [hp] using hne,
        fun w => by simp [updateL, hp, hupd w]⟩

theorem updateL_map_fst {α : Type} (k : String) (v : α) :
    ∀ m : List (String × α), (updateL k v m).map Prod.fst = m.map Prod.fst
  | [] => rfl
  | p :: rest => by
    by_cases hp : p.1 = k
    · simp [updateL, hp]
    · simp [updateL, hp, updateL_map_fst k v rest]

theorem mem_updateL {α : Type} (k : String) (v : α) (p : String × α) :
    ∀ m : List (String × α), p ∈ updateL k v m → p ∈ m ∨ p = (k, v)
  | q :: rest, h => by
    by_cases hq : q.1 = k
    · simp only [updateL, hq, if_true] at h
      rcases List.mem_cons.1 h with h | h
      · exact Or.inr h
      · exact Or.inl (List.mem_cons_of_mem _ h)
    · simp only [updateL, hq, if_false] at h
      rcases List.mem_cons.1 h with h | h
      · exact Or.inl (h ▸ List.mem_cons_self _ _)
      · rcases mem_updateL k v p rest h with h' | h'
        · exact Or.inl (List.mem_cons_of_mem _ h')
        · exact Or.inr h'

theorem mem_updateL_of_mem {α : Type} (k : String) (v w : α) (p : String × α)
    (m : List (String × α)) (hl : lookupL k m = some v) (hp : p ∈ m) :
    p ∈ updateL k w m ∨ p = (k, v) := by
  obtain ⟨m₁, m₂, hm, -, hupd⟩ := lookupL_split k v m hl
  rw [hupd w]
  subst hm
  rcases List.mem_append.1 hp with h | h
  · exact Or.inl (List.mem_append.2 (Or.inl h))
  · rcases List.mem_cons.1 h with h | h
    · exact Or.inr h
    · exact Or.inl (List.mem_append.2 (Or.inr (List.mem_cons_of_mem _ h)))

theorem lookupL_updateL_self {α : Type} (k : String) (v w : α)
    (m : List (String × α)) (hl : lookupL k m = some v) :
    lookupL k (updateL k w m) = some w := by
  obtain ⟨m₁, m₂, -, hne, hupd⟩ := lookupL_split k v m hl
  rw [hupd w]
  clear hupd hl
  induction m₁ with
  | nil => simp [lookupL]
  | cons q rest ih =>
    have hq : q.1 ≠ k := hne q (List.mem_cons_self _ _)
    simp only [List.cons_append, lookupL, hq, if_false]
    exact ih fun p hp => hne p (List.mem_cons_of_mem _ hp)

theorem lookupL_updateL_ne {α : Type} (k k' : String) (w : α)
    (hk : k' ≠ k) : ∀ m : List (String × α),
    lookupL k' (updateL k w m) = lookupL k' m
  | [] => rfl
  | p :: rest => by
    by_cases hp : p.1 = k
    · have : ¬ (k = k') := fun h => hk h.symm
      simp [updateL, lookupL, hp, this]
    · simp [updateL, lookupL, hp, lookupL_updateL_ne k k' w hk rest]

theorem sumLens_updateL (k : String) (l l' : List String) :
    ∀ d : List (String × List String), lookupL k d = some l →
      sumLens (updateL k l' d) + l.length = sumLens d + l'.length
  | p :: rest, h => by
    by_cases hp : p.1 = k
    · simp only [lookupL, hp, if_true, Option.some.injEq] at h
      subst h
      simp [updateL, hp, sumLens]
      omega
    · simp only [lookupL, hp, if_false] at h
      have := sumLens_updateL k l l' rest h
      simp only [updateL, hp, if_false, sumLens, List.map_cons, List.sum_cons]
      simp only [sumLens] at this
      omega

/-! ### Lemmas about pyInsert and the two insertion sorts -/

theorem pyInsert_perm (q : String → String → Bool) (v : String) :
    ∀ l : List String, (pyInsert q v l).Perm (v :: l)
  | [] => List.Perm.refl _
  | x :: xs => by
    cases h : q x v with
    | true => simp [pyInsert, h]
    | false =>
      simp only [pyInsert, h, Bool.false_eq_true, if_false]
      exact ((pyInsert_perm q v xs).cons x).trans (List.Perm.swap v x xs)

theorem mem_pyInsert (q : String → String → Bool) (v x : String) (l : List String) :
    x ∈ pyInsert q v l ↔ x = v ∨ x ∈ l := by
  rw [(pyInsert_perm q v l).mem_iff]
  simp

theorem pyInsert_pairwise (q : String → String → Bool) (v : String)
    (R : String → String → Prop)
    (h3 : ∀ x y, q x v = true → R x y → R v y) :
    ∀ l : List String, l.Pairwise R →
      (∀ x ∈ l, q x v = false → R x v) →
      (∀ x ∈ l, q x v = true → R v x) →
      (pyInsert q v l).Pairwise R
  | [], _, _, _ => List.pairwise_singleton R v
  | x :: xs, hl, h1, h2 => by
    rcases List.pairwise_cons.1 hl with ⟨hx, hxs⟩
    cases h : q x v with
    | true =>
      simp only [pyInsert, h, if_true]
      refine List.pairwise_cons.2 ⟨?_, hl⟩
      intro y hy
      rcases List.mem_cons.1 hy with hy | hy
      · exact hy ▸ h2 x (List.mem_cons_self _ _) h
      · exact h3 x y h (hx y hy)
    | false =>
      simp only [pyInsert, h, Bool.false_eq_true, if_false]
      refine List.pairwise_cons.2 ⟨?_, ?_⟩
      · intro y hy
        rcases (mem_pyInsert q v y xs).1 hy with hy | hy
        · exact hy ▸ h1 x (List.mem_cons_self _ _) h
        · exact hx y hy
      · exact pyInsert_pairwise q v R h3 xs hxs
          (fun z hz => h1 z (List.mem_cons_of_mem _ hz))
          (fun z hz => h2 z (List.mem_cons_of_mem _ hz))

theorem foldl_pyInsert_perm {β : Type} (q : String → String → Bool) (g : β → String) :
    ∀ (l : List β) (acc : List String),
      (l.foldl (fun a v => pyInsert q (g v) a) acc).Perm (acc ++ l.map g)
  | [], acc => by simp
  | b :: bs, acc => by
    simp only [List.foldl_cons, List.map_cons]
    refine (foldl_pyInsert_perm q g bs (pyInsert q (g b) acc)).trans ?_
    refine (((pyInsert_perm q (g b) acc).append_right (bs.map g)).trans ?_)
    exact List.perm_middle.symm

theorem foldl_pyInsert_pairwise {β : Type} (q : String → String → Bool) (g : β → String)
    (R : String → String → Prop)
    (h3 : ∀ x y v, q x v = true → R x y → R v y)
    (h2 : ∀ x v, q x v = true → R v x) :
    ∀ (l : List β) (acc : List String),
      acc.Pairwise R →
      (∀ x ∈ acc, ∀ b ∈ l, q x (g b) = false → R x (g b)) →
      l.Pairwise (fun a b => q (g a) (g b) = false → R (g a) (g b)) →
      (l.foldl (fun a v => pyInsert q (g v) a) acc).Pairwise R
  | [], acc, hacc, _, _ => hacc
  | b :: bs, acc, hacc, hcross, hl => by
    rcases List.pairwise_cons.1 hl with ⟨hb, hbs⟩
    simp only [List.foldl_cons]
    refine foldl_pyInsert_pairwise q g R h3 h2 bs (pyInsert q (g b) acc) ?_ ?_ hbs
    · exact pyInsert_pairwise q (g b) R (fun x y h hr => h3 x y (g b) h hr) acc hacc
        (fun x hx h => hcross x hx b (List.mem_cons_self _ _) h)
        (fun x _ h => h2 x (g b) h)
    · intro x hx b' hb'
      rcases (mem_pyInsert q (g b) x acc).1 hx with hx | hx
      · exact hx ▸ hb b' hb'
      · exact hcross x hx b' (List.mem_cons_of_mem _ hb')

theorem pairwise_of_forall {α : Type} {R : α → α → Prop}
    (h : ∀ a b, R a b) : ∀ l : List α, l.Pairwise R
  | [] => List.Pairwise.nil
  | x :: xs => List.pairwise_cons.2 ⟨fun y _ => h x y, pairwise_of_forall h xs⟩

/-! ### Lemmas about getLastD and dropLast -/

theorem getLastD_mem : ∀ (l : List String) (d : String), l ≠ [] → l.getLastD d ∈ l
  | [x], _, _ => by simp
  | x :: y :: t, d, _ => by
    have := getLastD_mem (y :: t) x (by simp)
    simp only [List.getLastD_cons] at this ⊢
    exact List.mem_cons_of_mem _ this

theorem pairwise_getLastD (P : String → String → Prop) :
    ∀ (l : List String) (d : String), l.Pairwise P → ∀ x ∈ l,
      x = l.getLastD d ∨ P x (l.getLastD d)
  | [x], _, _, y, hy => by
    simp only [List.mem_singleton] at hy
    subst hy
    exact Or.inl (by simp)
  | x :: y :: t, d, hl, z, hz => by
    rcases List.pairwise_cons.1 hl with ⟨hx, ht⟩
    rcases List.mem_cons.1 hz with hz | hz
    · subst hz
      simp only [List.getLastD_cons]
      have hm := getLastD_mem (y :: t) z (by simp)
      simp only [List.getLastD_cons] at hm
      exact Or.inr (hx _ hm)
    · simpa using pairwise_getLastD P (y :: t) x ht z hz

theorem dropLast_append_getLastD :
    ∀ (l : List String) (d : String), l ≠ [] → l.dropLast ++ [l.getLastD d] = l
  | [x], _, _ => by simp
  | x :: y :: t, d, _ => by
    have := dropLast_append_getLastD (y :: t) x (by simp)
    simp only [List.dropLast_cons₂, List.getLastD_cons, List.cons_append]
    simp only [List.getLastD_cons] at this
    rw [this]

theorem mem_of_mem_dropLast {x : String} {l : List String} (h : x ∈ l.dropLast) : x ∈ l :=
  (List.dropLast_sublist l).subset h

/-! ### Branch equations of the loop body smStep -/

theorem smStep_skip (c : String → Nat) (key : String)
    (dict : List (String × List String)) (free : List String)
    (m : List (String × String)) (h : (lookupL key dict).getD [] = []) :
    smStep c key dict free m = ⟨dict, free, m⟩ := by
  simp [smStep, h]

theorem smStep_new (c : String → Nat) (key : String)
    (dict : List (String × List String)) (free : List String)
    (m : List (String × String)) (prefs : List String)
    (h : lookupL key dict = some prefs) (hne : prefs ≠ [])
    (hm : lookupL (prefs.getLastD "") m = none) :
    smStep c key dict free m =
      ⟨updateL key prefs.dropLast dict, free, m ++ [(prefs.getLastD "", key)]⟩ := by
  simp only [smStep, h, Option.getD_some]
  rw [if_neg (by simpa [List.isEmpty_iff] using hne)]
  simp only [List.getLastD_eq_getLast?] at hm ⊢
  rw [hm]

theorem smStep_win (c : String → Nat) (key : String)
    (dict : List (String × List String)) (free : List String)
    (m : List (String × String)) (prefs : List String) (kiu : String)
    (h : lookupL key dict = some prefs) (hne : prefs ≠ [])
    (hm : lookupL (prefs.getLastD "") m = some kiu) (hlt : c key < c kiu) :
    smStep c key dict free m =
      ⟨updateL key prefs.dropLast dict, kiu :: free,
        updateL (prefs.getLastD "") key m⟩ := by
  simp only [smStep, h, Option.getD_some]
  rw [if_neg (by simpa [List.isEmpty_iff] using hne)]
  simp only [List.getLastD_eq_getLast?] at hm ⊢
  rw [hm]
  simp [hlt]

theorem smStep_lose (c : String → Nat) (key : String)
    (dict : List (String × List String)) (free : List String)
    (m : List (String × String)) (prefs : List String) (kiu : String)
    (h : lookupL key dict = some prefs) (hne : prefs ≠ [])
    (hm : lookupL (prefs.getLastD "") m = some kiu) (hge : ¬ c key < c kiu) :
    smStep c key dict free m =
      ⟨updateL key prefs.dropLast dict, key :: free, m⟩ := by
  simp only [smStep, h, Option.getD_some]
  rw [if_neg (by simpa [List.isEmpty_iff] using hne)]
  simp only [List.getLastD_eq_getLast?] at hm ⊢
  rw [hm]
  simp [hge]

theorem smLoop_nil (c : String → Nat) (fuel : Nat)
    (dict : List (String × List String)) (m : List (String × String)) :
    smLoop c fuel dict [] m = some (m, dict) := by
  cases fuel <;> rfl

theorem smLoop_zero (c : String → Nat) (dict : List (String × List String))
    (key : String) (free : List String) (m : List (String × String)) :
    smLoop c 0 dict (key :: free) m = none := rfl

theorem smLoop_cons (c : String → Nat) (fuel : Nat)
    (dict : List (String × List String)) (key : String) (free : List String)
    (m : List (String × String)) :
    smLoop c (fuel + 1) dict (key :: free) m =
      smLoop c fuel (smStep c key dict free m).dict (smStep c key dict free m).free
        (smStep c key dict free m).matched := rfl

/-! ### Termination of the loop -/

theorem sumLens_pop (key : String) (prefs : List String)
    (dict : List (String × List String))
    (h : lookupL key dict = some prefs) (hne : prefs ≠ []) :
    sumLens (updateL key prefs.dropLast dict) + 1 = sumLens dict := by
  have hu := sumLens_updateL key prefs prefs.dropLast dict h
  have h1 : prefs.dropLast.length = prefs.length - 1 := List.length_dropLast prefs
  have h2 : 0 < prefs.length := List.length_pos.2 hne
  omega

theorem smStep_measure (c : String → Nat) (key : String)
    (dict : List (String × List String)) (free : List String)
    (m : List (String × String)) :
    sumLens (smStep c key dict free m).dict + (smStep c key dict free m).free.length ≤
      sumLens dict + free.length := by
  rcases h : lookupL key dict with _ | prefs
  · rw [smStep_skip c key dict free m (by simp [h])]
  · by_cases hne : prefs = []
    · rw [smStep_skip c key dict free m (by simp [h, hne])]
    · have hpop := sumLens_pop key prefs dict h hne
      rcases hm : lookupL (prefs.getLastD "") m with _ | kiu
      · rw [smStep_new c key dict free m prefs h hne hm]
        dsimp only
        omega
      · by_cases hlt : c key < c kiu
        · rw [smStep_win c key dict free m prefs kiu h hne hm hlt]
          dsimp only
          simp only [List.length_cons]
          omega
        · rw [smStep_lose c key dict free m prefs kiu h hne hm hlt]
          dsimp only
          simp only [List.length_cons]
          omega

theorem smLoop_isSome (c : String → Nat) :
    ∀ (fuel : Nat) (dict : List (String × List String)) (free : List String)
      (m : List (String × String)), sumLens dict + free.length ≤ fuel →
      (smLoop c fuel dict free m).isSome
  | fuel, dict, [], m, _ => by rw [smLoop_nil]; rfl
  | 0, dict, key :: free, m, h => by
    simp only [List.length_cons] at h
    omega
  | fuel + 1, dict, key :: free, m, h => by
    rw [smLoop_cons]
    refine smLoop_isSome c fuel _ _ _ ?_
    have := smStep_measure c key dict free m
    simp only [List.length_cons] at h
    omega

/-! ### Containment invariant of the loop -/

theorem smStep_preserves_P (c : String → Nat) (key : String)
    (dict : List (String × List String)) (free : List String)
    (m : List (String × String)) (P : String → String → Prop)
    (hm : ∀ e k, (e, k) ∈ m → P e k)
    (hd : ∀ k l, lookupL k dict = some l → ∀ e ∈ l, P e k) :
    (∀ e k, (e, k) ∈ (smStep c key dict free m).matched → P e k) ∧
    (∀ k l, lookupL k (smStep c key dict free m).dict = some l → ∀ e ∈ l, P e k) := by
  rcases h : lookupL key dict with _ | prefs
  · rw [smStep_skip c key dict free m (by simp [h])]
    exact ⟨hm, hd⟩
  · by_cases hne : prefs = []
    · rw [smStep_skip c key dict free m (by simp [h, hne])]
      exact ⟨hm, hd⟩
    · have hentry : prefs.getLastD "" ∈ prefs := getLastD_mem prefs "" hne
      have hPentry : P (prefs.getLastD "") key := hd key prefs h _ hentry
      have hd' : ∀ k l, lookupL k (updateL key prefs.dropLast dict) = some l →
          ∀ e ∈ l, P e k := by
        intro k l hl e he
        by_cases hk : k = key
        · subst hk
          rw [lookupL_updateL_self k prefs prefs.dropLast dict h] at hl
          cases hl
          exact hd k prefs h e (mem_of_mem_dropLast he)
        · rw [lookupL_updateL_ne key k _ hk dict] at hl
          exact hd k l hl e he
      rcases hmE : lookupL (prefs.getLastD "") m with _ | kiu
      · rw [smStep_new c key dict free m prefs h hne hmE]
        refine ⟨?_, hd'⟩
        intro e k hek
        rcases List.mem_append.1 hek with h' | h'
        · exact hm e k h'
        · simp only [List.mem_singleton, Prod.mk.injEq] at h'
          obtain ⟨rfl, rfl⟩ := h'
          exact hPentry
      · by_cases hlt : c key < c kiu
        · rw [smStep_win c key dict free m prefs kiu h hne hmE hlt]
          refine ⟨?_, hd'⟩
          intro e k hek
          rcases mem_updateL _ _ _ m hek with h' | h'
          · exact hm e k h'
          · simp only [Prod.mk.injEq] at h'
            obtain ⟨rfl, rfl⟩ := h'
            exact hPentry
        · rw [smStep_lose c key dict free m prefs kiu h hne hmE hlt]
          exact ⟨hm, hd'⟩

theorem smLoop_mem_P (c : String → Nat) (P : String → String → Prop) :
    ∀ (fuel : Nat) (dict : List (String × List String)) (free : List String)
      (m : List (String × String))
      (res : List (String × String) × List (String × List String)),
      smLoop c fuel dict free m = some res →
      (∀ e k, (e, k) ∈ m → P e k) →
      (∀ k l, lookupL k dict = some l → ∀ e ∈ l, P e k) →
      ∀ e k, (e, k) ∈ res.1 → P e k
  | fuel, dict, [], m, res, hres, hm, _ => by
    rw [smLoop_nil] at hres
    cases hres
    exact hm
  | 0, dict, key :: free, m, res, hres, _, _ => by
    rw [smLoop_zero] at hres
    cases hres
  | fuel + 1, dict, key :: free, m, res, hres, hm, hd => by
    rw [smLoop_cons] at hres
    have hstep := smStep_preserves_P c key dict free m P hm hd
    exact smLoop_mem_P c P fuel _ _ _ res hres hstep.1 hstep.2

/-! ### Injectivity invariant of the loop -/

theorem smStep_preserves_nodup (c : String → Nat) (key : String)
    (dict : List (String × List String)) (free : List String)
    (m : List (String × String))
    (h1 : (m.map Prod.fst).Nodup)
    (h2 : (m.map Prod.snd ++ key :: free).Nodup) :
    ((smStep c key dict free m).matched.map Prod.fst).Nodup ∧
    ((smStep c key dict free m).matched.map Prod.snd ++
      (smStep c key dict free m).free).Nodup := by
  have hsub : (m.map Prod.snd ++ free).Nodup := by
    refine h2.sublist ?_
    exact (List.sublist_cons_self key free).append_left (m.map Prod.snd)
  rcases h : lookupL key dict with _ | prefs
  · rw [smStep_skip c key dict free m (by simp [h])]
    exact ⟨h1, hsub⟩
  · by_cases hne : prefs = []
    · rw [smStep_skip c key dict free m (by simp [h, hne])]
      exact ⟨h1, hsub⟩
    · rcases hmE : lookupL (prefs.getLastD "") m with _ | kiu
      · rw [smStep_new c key dict free m prefs h hne hmE]
        dsimp only
        constructor
        · have hnot : prefs.getLastD "" ∉ m.map Prod.fst :=
            (lookupL_eq_none _ m).1 hmE
          simp only [List.map_append, List.map_cons, List.map_nil]
          rw [List.nodup_append]
          refine ⟨h1, by simp, ?_⟩
          intro a ha hb
          simp only [List.mem_singleton] at hb
          exact hnot (hb ▸ ha)
        · simp only [List.map_append, List.map_cons, List.map_nil, List.append_assoc,
            List.singleton_append]
          exact h2
      · by_cases hlt : c key < c kiu
        · rw [smStep_win c key dict free m prefs kiu h hne hmE hlt]
          dsimp only
          obtain ⟨m₁, m₂, hmeq, -, hupd⟩ := lookupL_split _ kiu m hmE
          constructor
          · rw [hupd key]
            have heq : (m₁ ++ ((prefs.getLastD "", key) : String × String) :: m₂).map Prod.fst
                = m.map Prod.fst := by
              rw [hmeq]
              simp
            rw [heq]
            exact h1
          · rw [hupd key]
            subst hmeq
            have hperm :
                (((m₁ ++ (prefs.getLastD "", kiu) :: m₂).map Prod.snd) ++ key :: free).Perm
                (((m₁ ++ (prefs.getLastD "", key) :: m₂).map Prod.snd) ++ kiu :: free) := by
              simp only [List.map_append, List.map_cons, List.append_assoc,
                List.cons_append]
              refine List.Perm.append_left (m₁.map Prod.snd) ?_
              refine (List.perm_middle.cons kiu).trans ?_
              refine (List.Perm.swap key kiu _).trans ?_
              exact (List.perm_middle.cons key).symm
            exact hperm.nodup_iff.1 h2
        · rw [smStep_lose c key dict free m prefs kiu h hne hmE hlt]
          exact ⟨h1, h2⟩

theorem smLoop_nodup (c : String → Nat) :
    ∀ (fuel : Nat) (dict : List (String × List String)) (free : List String)
      (m : List (String × String))
      (res : List (String × String) × List (String × List String)),
      smLoop c fuel dict free m = some res →
      (m.map Prod.fst).Nodup →
      (m.map Prod.snd ++ free).Nodup →
      (res.1.map Prod.fst).Nodup ∧ (res.1.map Prod.snd).Nodup
  | fuel, dict, [], m, res, hres, h1, h2 => by
    rw [smLoop_nil] at hres
    cases hres
    rw [List.append_nil] at h2
    exact ⟨h1, h2⟩
  | 0, dict, key :: free, m, res, hres, _, _ => by
    rw [smLoop_zero] at hres
    cases hres
  | fuel + 1, dict, key :: free, m, res, hres, h1, h2 => by
    rw [smLoop_cons] at hres
    have hstep := smStep_preserves_nodup c key dict free m h1 h2
    exact smLoop_nodup c fuel _ _ _ res hres hstep.1 hstep.2

/-! ### Every case ends matched or with an exhausted preference list -/

theorem smStep_preserves_moe (c : String → Nat) (key : String)
    (dict : List (String × List String)) (free : List String)
    (m : List (String × String)) (x : String)
    (hsome : (lookupL x dict).isSome)
    (hinv : x ∈ key :: free ∨ (∃ e, (e, x) ∈ m) ∨ lookupL x dict = some []) :
    (lookupL x (smStep c key dict free m).dict).isSome ∧
      (x ∈ (smStep c key dict free m).free ∨
        (∃ e, (e, x) ∈ (smStep c key dict free m).matched) ∨
        lookupL x (smStep c key dict free m).dict = some []) := by
  rcases h : lookupL key dict with _ | prefs
  · rw [smStep_skip c key dict free m (by simp [h])]
    refine ⟨hsome, ?_⟩
    rcases hinv with hf | hrest
    · rcases List.mem_cons.1 hf with rfl | hf
      · rw [h] at hsome
        cases hsome
      · exact Or.inl hf
    · exact Or.inr hrest
  · by_cases hne : prefs = []
    · rw [smStep_skip c key dict free m (by simp [h, hne])]
      refine ⟨hsome, ?_⟩
      rcases hinv with hf | hrest
      · rcases List.mem_cons.1 hf with rfl | hf
        · subst hne
          exact Or.inr (Or.inr h)
        · exact Or.inl hf
      · exact Or.inr hrest
    · have hsome' : (lookupL x (updateL key prefs.dropLast dict)).isSome := by
        rw [lookupL_isSome, updateL_map_fst]
        exact (lookupL_isSome x dict).1 hsome
      have hempty' : lookupL x dict = some [] →
          lookupL x (updateL key prefs.dropLast dict) = some [] := by
        intro hx
        by_cases hk : x = key
        · subst hk
          rw [hx] at h
          cases h
          exact absurd rfl hne
        · rw [lookupL_updateL_ne key x _ hk dict]
          exact hx
      rcases hmE : lookupL (prefs.getLastD "") m with _ | kiu
      · rw [smStep_new c key dict free m prefs h hne hmE]
        dsimp only
        refine ⟨hsome', ?_⟩
        rcases hinv with hf | ⟨e, he⟩ | hempty
        · rcases List.mem_cons.1 hf with rfl | hf
          · exact Or.inr (Or.inl ⟨prefs.getLastD "", by simp⟩)
          · exact Or.inl hf
        · exact Or.inr (Or.inl ⟨e, List.mem_append.2 (Or.inl he)⟩)
        · exact Or.inr (Or.inr (hempty' hempty))
      · by_cases hlt : c key < c kiu
        · rw [smStep_win c key dict free m prefs kiu h hne hmE hlt]
          dsimp only
          refine ⟨hsome', ?_⟩
          obtain ⟨m₁, m₂, hmeq, -, hupd⟩ := lookupL_split _ kiu m hmE
          rcases hinv with hf | ⟨e, he⟩ | hempty
          · rcases List.mem_cons.1 hf with rfl | hf
            · refine Or.inr (Or.inl ⟨prefs.getLastD "", ?_⟩)
              rw [hupd x]
              exact List.mem_append.2 (Or.inr (List.mem_cons_self _ _))
            · exact Or.inl (List.mem_cons_of_mem _ hf)
          · rcases mem_updateL_of_mem _ kiu key (e, x) m hmE he with h' | h'
            · exact Or.inr (Or.inl ⟨e, h'⟩)
            · simp only [Prod.mk.injEq] at h'
              exact Or.inl (h'.2 ▸ List.mem_cons_self _ _)
          · exact Or.inr (Or.inr (hempty' hempty))
        · rw [smStep_lose c key dict free m prefs kiu h hne hmE hlt]
          dsimp only
          refine ⟨hsome', ?_⟩
          rcases hinv with hf | ⟨e, he⟩ | hempty
          · exact Or.inl hf
          · exact Or.inr (Or.inl ⟨e, he⟩)
          · exact Or.inr (Or.inr (hempty' hempty))

theorem smLoop_moe (c : String → Nat) (x : String) :
    ∀ (fuel : Nat) (dict : List (String × List String)) (free : List String)
      (m : List (String × String))
      (res : List (String × String) × List (String × List String)),
      smLoop c fuel dict free m = some res →
      (lookupL x dict).isSome →
      (x ∈ free ∨ (∃ e, (e, x) ∈ m) ∨ lookupL x dict = some []) →
      (∃ e, (e, x) ∈ res.1) ∨ lookupL x res.2 = some []
  | fuel, dict, [], m, res, hres, _, hinv => by
    rw [smLoop_nil] at hres
    cases hres
    rcases hinv with hf | hrest
    · cases hf
    · exact hrest
  | 0, dict, key :: free, m, res, hres, _, _ => by
    rw [smLoop_zero] at hres
    cases hres
  | fuel + 1, dict, key :: free, m, res, hres, hsome, hinv => by
    rw [smLoop_cons] at hres
    have hstep := smStep_preserves_moe c key dict free m x hsome hinv
    exact smLoop_moe c x fuel _ _ _ res hres hstep.1 hstep.2

/-! ### A case outside the free stack and the match never enters the match -/

theorem smStep_out (c : String → Nat) (key : String)
    (dict : List (String × List String)) (free : List String)
    (m : List (String × String)) (y : String)
    (hfree : y ∉ key :: free) (hm : ∀ e, (e, y) ∉ m) :
    y ∉ (smStep c key dict free m).free ∧
      ∀ e, (e, y) ∉ (smStep c key dict free m).matched := by
  have hyk : y ≠ key := fun h => hfree (h ▸ List.mem_cons_self _ _)
  have hyf : y ∉ free := fun h => hfree (List.mem_cons_of_mem _ h)
  rcases h : lookupL key dict with _ | prefs
  · rw [smStep_skip c key dict free m (by simp [h])]
    exact ⟨hyf, hm⟩
  · by_cases hne : prefs = []
    · rw [smStep_skip c key dict free m (by simp [h, hne])]
      exact ⟨hyf, hm⟩
    · rcases hmE : lookupL (prefs.getLastD "") m with _ | kiu
      · rw [smStep_new c key dict free m prefs h hne hmE]
        dsimp only
        refine ⟨hyf, ?_⟩
        intro e he
        rcases List.mem_append.1 he with h' | h'
        · exact hm e h'
        · simp only [List.mem_singleton, Prod.mk.injEq] at h'
          exact hyk h'.2
      · by_cases hlt : c key < c kiu
        · rw [smStep_win c key dict free m prefs kiu h hne hmE hlt]
          dsimp only
          have hykiu : y ≠ kiu := by
            intro hy
            exact hm (prefs.getLastD "") (hy ▸ lookupL_mem _ kiu m hmE)
          constructor
          · intro hy
            rcases List.mem_cons.1 hy with hy | hy
            · exact hykiu hy
            · exact hyf hy
          · intro e he
            rcases mem_updateL _ _ _ m he with h' | h'
            · exact hm e h'
            · simp only [Prod.mk.injEq] at h'
              exact hyk h'.2
        · rw [smStep_lose c key dict free m prefs kiu h hne hmE hlt]
          exact ⟨hfree, hm⟩

theorem smLoop_out (c : String → Nat) (y : String) :
    ∀ (fuel : Nat) (dict : List (String × List String)) (free : List String)
      (m : List (String × String))
      (res : List (String × String) × List (String × List String)),
      smLoop c fuel dict free m = some res →
      y ∉ free → (∀ e, (e, y) ∉ m) → ∀ e, (e, y) ∉ res.1
  | fuel, dict, [], m, res, hres, _, hm => by
    rw [smLoop_nil] at hres
    cases hres
    exact hm
  | 0, dict, key :: free, m, res, hres, _, _ => by
    rw [smLoop_zero] at hres
    cases hres
  | fuel + 1, dict, key :: free, m, res, hres, hfree, hm => by
    rw [smLoop_cons] at hres
    have hstep := smStep_out c key dict free m y hfree hm
    exact smLoop_out c y fuel _ _ _ res hres hstep.1 hstep.2

/-! ### Facts about the two insertion sorts -/

theorem orderList_perm (f : String → Nat) (l : List String) :
    (orderList f l).Perm l := by
  have h := foldl_pyInsert_perm (fun x w => decide (f w < f x)) id l []
  simpa [orderList] using h

theorem orderList_sorted (f : String → Nat) (l : List String) :
    (orderList f l).Pairwise fun a b => f a ≤ f b := by
  have h := foldl_pyInsert_pairwise (fun x w => decide (f w < f x)) id
    (fun a b => f a ≤ f b)
    (fun x y v hq hr => by
      simp only [decide_eq_true_eq] at hq
      omega)
    (fun x v hq => by
      simp only [decide_eq_true_eq] at hq
      omega)
    l [] List.Pairwise.nil (by simp)
    (pairwise_of_forall (fun a b hq => by
      simp only [decide_eq_false_iff_not] at hq
      omega) l)
  simpa [orderList] using h

theorem order_keys_perm (d : List (String × List String)) :
    (order_keys d).Perm (d.map Prod.fst) := by
  have h := foldl_pyInsert_perm
    (fun x w => decide (lenD d x < lenD d w)) Prod.fst d []
  simpa [order_keys] using h

theorem order_keys_sorted (d : List (String × List String)) :
    (order_keys d).Pairwise fun a b => lenD d b ≤ lenD d a := by
  have h := foldl_pyInsert_pairwise
    (fun x w => decide (lenD d x < lenD d w)) Prod.fst
    (fun a b => lenD d b ≤ lenD d a)
    (fun x y v hq hr => by
      simp only [decide_eq_true_eq] at hq
      omega)
    (fun x v hq => by
      simp only [decide_eq_true_eq] at hq
      omega)
    d [] List.Pairwise.nil (by simp)
    (pairwise_of_forall (fun p p' hq => by
      simp only [decide_eq_false_iff_not] at hq
      omega) d)
  simpa [order_keys] using h

theorem nodup_pairwise_indexOf : ∀ l : List String, l.Nodup →
    l.Pairwise fun a b => l.indexOf a < l.indexOf b
  | [], _ => List.Pairwise.nil
  | x :: xs, h => by
    rcases List.nodup_cons.1 h with ⟨hx, hxs⟩
    refine List.pairwise_cons.2 ⟨?_, ?_⟩
    · intro b hb
      have hbx : x ≠ b := fun hbx => hx (hbx ▸ hb)
      rw [List.indexOf_cons_self, List.indexOf_cons_ne xs hbx]
      omega
    · have ih := nodup_pairwise_indexOf xs hxs
      refine ih.imp_of_mem ?_
      intro a b ha hb hab
      have hax : x ≠ a := fun h' => hx (h' ▸ ha)
      have hbx : x ≠ b := fun h' => hx (h' ▸ hb)
      rw [List.indexOf_cons_ne xs hax, List.indexOf_cons_ne xs hbx]
      omega

theorem order_keys_sorted_stable (d : List (String × List String))
    (hd : (d.map Prod.fst).Nodup) :
    (order_keys d).Pairwise fun a b =>
      lenD d b < lenD d a ∨
        (lenD d a = lenD d b ∧
          (d.map Prod.fst).indexOf a < (d.map Prod.fst).indexOf b) := by
  have hidx : d.Pairwise fun p p' =>
      (d.map Prod.fst).indexOf p.1 < (d.map Prod.fst).indexOf p'.1 :=
    (@List.pairwise_map (String × List String) String Prod.fst
      (fun a b => (d.map Prod.fst).indexOf a < (d.map Prod.fst).indexOf b) d).1
      (nodup_pairwise_indexOf (d.map Prod.fst) hd)
  have h := foldl_pyInsert_pairwise
    (fun x w => decide (lenD d x < lenD d w)) Prod.fst
    (fun a b => lenD d b < lenD d a ∨
      (lenD d a = lenD d b ∧
        (d.map Prod.fst).indexOf a < (d.map Prod.fst).indexOf b))
    (fun x y v hq hr => by
      simp only [decide_eq_true_eq] at hq
      rcases hr with hr | ⟨hr, -⟩
      · exact Or.inl (by omega)
      · exact Or.inl (by omega))
    (fun x v hq => by
      simp only [decide_eq_true_eq] at hq
      exact Or.inl hq)
    d [] List.Pairwise.nil (by simp)
    (hidx.imp_of_mem fun {p p'} hp hp' hlt hq => by
      simp only [decide_eq_false_iff_not] at hq
      by_cases he : lenD d p.1 = lenD d p'.1
      · exact Or.inr ⟨he, hlt⟩
      · exact Or.inl (by omega))
  simpa [order_keys] using h

/-! ### Heap-model simulation lemmas -/

theorem getCell_setCell_self : ∀ (h : List (List String)) (r : Nat) (l : List String),
    r < h.length → getCell (setCell h r l) r = l
  | _ :: _, 0, _, _ => rfl
  | x :: t, r + 1, l, hb => by
    have := getCell_setCell_self t r l (by simpa using hb)
    simpa [getCell, setCell] using this
  | [], r, l, hb => by cases hb

theorem getCell_setCell_ne : ∀ (h : List (List String)) (r r' : Nat) (l : List String),
    r' ≠ r → getCell (setCell h r l) r' = getCell h r'
  | [], _, _, _, _ => rfl
  | x :: t, 0, 0, l, hne => absurd rfl hne
  | x :: t, 0, r' + 1, l, _ => rfl
  | x :: t, r + 1, 0, l, _ => rfl
  | x :: t, r + 1, r' + 1, l, hne => by
    have := getCell_setCell_ne t r r' l (fun h' => hne (by omega))
    simpa [getCell, setCell] using this

theorem getCell_ne_lt : ∀ (h : List (List String)) (r : Nat),
    getCell h r ≠ [] → r < h.length
  | [], r, hne => absurd (by cases r <;> rfl) hne
  | x :: t, 0, _ => Nat.succ_pos _
  | x :: t, r + 1, hne =>
    Nat.succ_lt_succ (getCell_ne_lt t r (by simpa [getCell] using hne))

theorem lookupL_hView (k : String) (h : Heap) :
    ∀ d : HDict, lookupL k (hView d h) = (lookupL k d).map (getCell h)
  | [] => rfl
  | p :: rest => by
    by_cases hp : p.1 = k
    · simp [hView, lookupL, hp]
    · simp only [hView, List.map_cons, lookupL, hp, if_false]
      exact lookupL_hView k h rest

theorem hView_setCell_notin (h : Heap) (r : Nat) (l : List String) :
    ∀ d : HDict, r ∉ d.map Prod.snd → hView d (setCell h r l) = hView d h
  | [], _ => rfl
  | p :: rest, hnotin => by
    simp only [List.map_cons, List.mem_cons] at hnotin
    push_neg at hnotin
    simp only [hView, List.map_cons]
    rw [getCell_setCell_ne h r p.2 l (fun h' => hnotin.1 h'.symm)]
    have := hView_setCell_notin h r l rest hnotin.2
    simp only [hView] at this
    rw [this]

theorem hView_setCell (key : String) (r : Nat) (l : List String) (h : Heap)
    (hb : r < h.length) :
    ∀ d : HDict, lookupL key d = some r → (d.map Prod.snd).Nodup →
      hView d (setCell h r l) = updateL key l (hView d h)
  | p :: rest, hr, hnod => by
    have hnod' : (p.2 :: rest.map Prod.snd).Nodup := by simpa using hnod
    rcases List.nodup_cons.1 hnod' with ⟨hp2, hrest⟩
    by_cases hp : p.1 = key
    · simp only [lookupL, hp, if_true, Option.some.injEq] at hr
      subst hr
      simp only [hView, List.map_cons, updateL, hp, if_true]
      rw [getCell_setCell_self h p.2 l hb]
      have hno := hView_setCell_notin h p.2 l rest hp2
      simp only [hView] at hno
      rw [hno]
    · simp only [lookupL, hp, if_false] at hr
      have hmem : r ∈ rest.map Prod.snd :=
        List.mem_map.2 ⟨(key, r), lookupL_mem key r rest hr, rfl⟩
      have hpne : p.2 ≠ r := fun h' => hp2 (h' ▸ hmem)
      simp only [hView, List.map_cons, updateL, hp, if_false]
      rw [getCell_setCell_ne h r p.2 l hpne]
      have := hView_setCell key r l h hb rest hr hrest
      simp only [hView] at this
      rw [this]

theorem smStepH_skip_none (c : String → Nat) (key : String) (dict : HDict)
    (h : Heap) (free : List String) (m : List (String × String))
    (hr : lookupL key dict = none) :
    smStepH c key dict h free m = (h, free, m) := by
  simp [smStepH, hr]

theorem smStepH_skip_empty (c : String → Nat) (key : String) (dict : HDict)
    (h : Heap) (free : List String) (m : List (String × String)) (r : Nat)
    (hr : lookupL key dict = some r) (he : getCell h r = []) :
    smStepH c key dict h free m = (h, free, m) := by
  simp [smStepH, hr, he]

theorem smStepH_new (c : String → Nat) (key : String) (dict : HDict)
    (h : Heap) (free : List String) (m : List (String × String)) (r : Nat)
    (hr : lookupL key dict = some r) (hne : getCell h r ≠ [])
    (hm : lookupL ((getCell h r).getLastD "") m = none) :
    smStepH c key dict h free m =
      (setCell h r (getCell h r).dropLast, free, m ++ [((getCell h r).getLastD "", key)]) := by
  simp only [smStepH, hr]
  rw [if_neg (by simpa [List.isEmpty_iff] using hne)]
  simp only [List.getLastD_eq_getLast?] at hm ⊢
  rw [hm]

theorem smStepH_win (c : String → Nat) (key : String) (dict : HDict)
    (h : Heap) (free : List String) (m : List (String × String)) (r : Nat) (kiu : String)
    (hr : lookupL key dict = some r) (hne : getCell h r ≠ [])
    (hm : lookupL ((getCell h r).getLastD "") m = some kiu) (hlt : c key < c kiu) :
    smStepH c key dict h free m =
      (setCell h r (getCell h r).dropLast, kiu :: free,
        updateL ((getCell h r).getLastD "") key m) := by
  simp only [smStepH, hr]
  rw [if_neg (by simpa [List.isEmpty_iff] using hne)]
  simp only [List.getLastD_eq_getLast?] at hm ⊢
  rw [hm]
  simp [hlt]

theorem smStepH_lose (c : String → Nat) (key : String) (dict : HDict)
    (h : Heap) (free : List String) (m : List (String × String)) (r : Nat) (kiu : String)
    (hr : lookupL key dict = some r) (hne : getCell h r ≠ [])
    (hm : lookupL ((getCell h r).getLastD "") m = some kiu) (hge : ¬ c key < c kiu) :
    smStepH c key dict h free m =
      (setCell h r (getCell h r).dropLast, key :: free, m) := by
  simp only [smStepH, hr]
  rw [if_neg (by simpa [List.isEmpty_iff] using hne)]
  simp only [List.getLastD_eq_getLast?] at hm ⊢
  rw [hm]
  simp [hge]

theorem smStepH_sim (c : String → Nat) (key : String) (dict : HDict) (h : Heap)
    (free : List String) (m : List (String × String))
    (hnod : (dict.map Prod.snd).Nodup) :
    smStep c key (hView dict h) free m =
      ⟨hView dict (smStepH c key dict h free m).1,
       (smStepH c key dict h free m).2.1,
       (smStepH c key dict h free m).2.2⟩ := by
  rcases hr : lookupL key dict with _ | r
  · have hv : lookupL key (hView dict h) = none := by
      rw [lookupL_hView, hr]
      rfl
    rw [smStep_skip c key _ free m (by simp [hv]), smStepH_skip_none c key dict h free m hr]
  · have hv : lookupL key (hView dict h) = some (getCell h r) := by
      rw [lookupL_hView, hr]
      rfl
    by_cases hne : getCell h r = []
    · rw [smStep_skip c key _ free m (by simp [hv, hne]),
        smStepH_skip_empty c key dict h free m r hr hne]
    · have hb : r < h.length := getCell_ne_lt h r hne
      have hupd := hView_setCell key r (getCell h r).dropLast h hb dict hr hnod
      rcases hm : lookupL ((getCell h r).getLastD "") m with _ | kiu
      · rw [smStep_new c key _ free m (getCell h r) hv hne hm,
          smStepH_new c key dict h free m r hr hne hm]
        rw [hupd]
      · by_cases hlt : c key < c kiu
        · rw [smStep_win c key _ free m (getCell h r) kiu hv hne hm hlt,
            smStepH_win c key dict h free m r kiu hr hne hm hlt]
          rw [hupd]
        · rw [smStep_lose c key _ free m (getCell h r) kiu hv hne hm hlt,
            smStepH_lose c key dict h free m r kiu hr hne hm hlt]
          rw [hupd]

theorem smLoopH_nil (c : String → Nat) (fuel : Nat) (dict : HDict) (h : Heap)
    (m : List (String × String)) : smLoopH c fuel dict h [] m = some (m, h) := by
  cases fuel <;> rfl

theorem smLoopH_zero (c : String → Nat) (dict : HDict) (h : Heap)
    (key : String) (free : List String) (m : List (String × String)) :
    smLoopH c 0 dict h (key :: free) m = none := rfl

theorem smLoopH_cons (c : String → Nat) (fuel : Nat) (dict : HDict) (h : Heap)
    (key : String) (free : List String) (m : List (String × String)) :
    smLoopH c (fuel + 1) dict h (key :: free) m =
      smLoopH c fuel dict (smStepH c key dict h free m).1
        (smStepH c key dict h free m).2.1 (smStepH c key dict h free m).2.2 := rfl

theorem smLoopH_sim (c : String → Nat) (dict : HDict)
    (hnod : (dict.map Prod.snd).Nodup) :
    ∀ (fuel : Nat) (h : Heap) (free : List String) (m : List (String × String)),
      smLoop c fuel (hView dict h) free m =
        (smLoopH c fuel dict h free m).map fun res => (res.1, hView dict res.2)
  | fuel, h, [], m => by rw [smLoop_nil, smLoopH_nil]; rfl
  | 0, h, key :: free, m => by rw [smLoop_zero, smLoopH_zero]; rfl
  | fuel + 1, h, key :: free, m => by
    rw [smLoop_cons, smLoopH_cons, smStepH_sim c key dict h free m hnod]
    exact smLoopH_sim c dict hnod fuel _ _ _

theorem headD_reverse (l : List String) (d : String) :
    l.reverse.headD d = l.getLastD d := by
  rw [List.headD_eq_head?, List.head?_reverse, List.getLastD_eq_getLast?]

/-! ### Claim theorems -/

/-- Claim C1, counterexample.  The claim says that the entry popped from the
end of a ranked preference list is the scarcest remaining compatible control.
Counterexample: case c has compatible controls x and y with scarcity counts
1 and 2; orderDict ranks the list ascending as x then y, and the matching
loop pops the END of the list, so the very first proposal of c goes to y,
the MOST abundant control, even though the scarcer compatible control x
(count 1 smaller than 2) is still in the list; c ends matched to y. -/
theorem pop_entry_not_scarcest_cex :
    orderDict [("c", ["x", "y"])] (fun s => if s = "y" then 2 else 1) =
      [("c", ["x", "y"])] ∧
    stable_marriage (orderDict [("c", ["x", "y"])] (fun s => if s = "y" then 2 else 1))
      (fun s => if s = "y" then 2 else 1) (fun _ => 1) = [("y", "c")] ∧
    (fun s : String => if s = "y" then 2 else 1) "x" <
      (fun s : String => if s = "y" then 2 else 1) "y" := by
  refine ⟨by decide, by decide, by decide⟩

/-- Claim C1, amended.  orderDict does sort every ranked preference list
ascending by the scarcity-count map, and the loop pops from the end, so the
popped entry is a control of MAXIMAL scarcity count among the remaining
compatible controls (the most abundant one), and successive proposals of a
case run through its compatible controls in descending order of scarcity
count, most abundant first — not scarcest first as the claim stated. -/
theorem orderList_ascending_pop_most_abundant (f : String → Nat) (l : List String) :
    (orderList f l).Perm l ∧
    (orderList f l).Pairwise (fun a b => f a ≤ f b) ∧
    ∀ x ∈ orderList f l, f x ≤ f ((orderList f l).getLastD "") := by
  refine ⟨orderList_perm f l, orderList_sorted f l, ?_⟩
  intro x hx
  rcases pairwise_getLastD _ (orderList f l) "" (orderList_sorted f l) x hx with he | hle
  · rw [he]
  · exact hle

/-- Witness for the amended claim C1 at a concrete input. -/
theorem orderList_ascending_pop_most_abundant_witness :
    (orderList (fun s => if s = "y" then 2 else 1) ["y", "x"]).Perm ["y", "x"] ∧
    (fun s : String => if s = "y" then 2 else 1) "x" ≤
      (fun s : String => if s = "y" then 2 else 1)
        ((orderList (fun s => if s = "y" then 2 else 1) ["y", "x"]).getLastD "") :=
  ⟨(orderList_ascending_pop_most_abundant (fun s => if s = "y" then 2 else 1) ["y", "x"]).1,
   (orderList_ascending_pop_most_abundant (fun s => if s = "y" then 2 else 1) ["y", "x"]).2.2
     "x" (by decide)⟩

/-- Claim C2.  One iteration of the matching loop in which the proposing case
key pops a control k already assigned to key_in_use: when
pref_counts_case key is strictly smaller than pref_counts_case key_in_use,
k is reassigned to key and key_in_use is pushed back on the free stack with
its own preference list untouched; otherwise (ties included) the match
dictionary is unchanged and the proposer is pushed back on the free stack.
In both branches the popped list of the proposer shrinks by its last entry. -/
theorem smLoop_displacement_rule (c : String → Nat) (fuel : Nat)
    (dict : List (String × List String)) (free : List String)
    (m : List (String × String)) (key : String) (prefs : List String) (k kiu : String)
    (hp : lookupL key dict = some prefs) (hne : prefs ≠ [])
    (hk : prefs.getLastD "" = k) (hm : lookupL k m = some kiu) (hkk : kiu ≠ key) :
    (c key < c kiu →
      smLoop c (fuel + 1) dict (key :: free) m =
        smLoop c fuel (updateL key prefs.dropLast dict) (kiu :: free) (updateL k key m) ∧
      lookupL k (updateL k key m) = some key ∧
      lookupL kiu (updateL key prefs.dropLast dict) = lookupL kiu dict) ∧
    (¬ c key < c kiu →
      smLoop c (fuel + 1) dict (key :: free) m =
        smLoop c fuel (updateL key prefs.dropLast dict) (key :: free) m) := by
  subst hk
  constructor
  · intro hlt
    refine ⟨?_, ?_, ?_⟩
    · rw [smLoop_cons, smStep_win c key dict free m prefs kiu hp hne hm hlt]
    · exact lookupL_updateL_self _ kiu key m hm
    · exact lookupL_updateL_ne key kiu _ hkk dict
  · intro hge
    rw [smLoop_cons, smStep_lose c key dict free m prefs kiu hp hne hm hge]

/-- Witness for claim C2: both branches at concrete states.  In the first
state the proposer key1 has the smaller original count and displaces key2;
in the second the counts tie and the incumbent stays. -/
theorem smLoop_displacement_rule_witness :
    (smLoop (fun s => if s = "key1" then 1 else 2) 1 [("key1", ["k0"])] ["key1"]
        [("k0", "key2")] =
      smLoop (fun s => if s = "key1" then 1 else 2) 0
        (updateL "key1" (["k0"] : List String).dropLast [("key1", ["k0"])])
        ["key2"] (updateL "k0" "key1" [("k0", "key2")]) ∧
      lookupL "k0" (updateL "k0" "key1" [("k0", "key2")]) = some "key1" ∧
      lookupL "key2" (updateL "key1" (["k0"] : List String).dropLast [("key1", ["k0"])]) =
        lookupL "key2" [("key1", ["k0"])]) ∧
    (smLoop (fun _ => 2) 1 [("key1", ["k0"])] ["key1"] [("k0", "key2")] =
      smLoop (fun _ => 2) 0
        (updateL "key1" (["k0"] : List String).dropLast [("key1", ["k0"])])
        ["key1"] [("k0", "key2")]) :=
  ⟨(smLoop_displacement_rule (fun s => if s = "key1" then 1 else 2) 0 [("key1", ["k0"])] []
      [("k0", "key2")] "key1" ["k0"] "k0" "key2" (by decide) (by decide) (by decide)
      (by decide) (by decide)).1 (by decide),
   (smLoop_displacement_rule (fun _ => 2) 0 [("key1", ["k0"])] []
      [("k0", "key2")] "key1" ["k0"] "k0" "key2" (by decide) (by decide) (by decide)
      (by decide) (by decide)).2 (by decide)⟩

/-- Claim C3.  For every preference dictionary with distinct keys (as any
actual Python dict has), the assignment returned by stable_marriage is
injective in both directions: no control identifier occurs twice as a key of
the match dictionary and no case identifier occurs twice as a value. -/
theorem stable_marriage_injective (dictionary_pref : List (String × List String))
    (pref_counts_cont pref_counts_case : String → Nat)
    (hd : (dictionary_pref.map Prod.fst).Nodup) :
    ((stable_marriage dictionary_pref pref_counts_cont pref_counts_case).map Prod.fst).Nodup ∧
    ((stable_marriage dictionary_pref pref_counts_cont pref_counts_case).map Prod.snd).Nodup := by
  unfold stable_marriage
  rcases hres : sm_run dictionary_pref pref_counts_case with _ | res
  · simp
  · simp only [Option.map_some', Option.getD_some]
    unfold sm_run at hres
    refine smLoop_nodup pref_counts_case _ _ _ _ res hres (by simp) ?_
    simp only [List.map_nil, List.nil_append]
    have hperm : ((order_keys dictionary_pref).reverse).Perm
        (dictionary_pref.map Prod.fst) :=
      (List.reverse_perm _).trans (order_keys_perm dictionary_pref)
    exact hperm.nodup_iff.2 hd

/-- Witness for claim C3 at a concrete input. -/
theorem stable_marriage_injective_witness :
    ((stable_marriage [("c2", ["j", "k"]), ("c1", ["k"])] (fun _ => 0)
        (fun s => if s = "c1" then 1 else 2)).map Prod.fst).Nodup ∧
    ((stable_marriage [("c2", ["j", "k"]), ("c1", ["k"])] (fun _ => 0)
        (fun s => if s = "c1" then 1 else 2)).map Prod.snd).Nodup :=
  stable_marriage_injective [("c2", ["j", "k"]), ("c1", ["k"])] (fun _ => 0)
    (fun s => if s = "c1" then 1 else 2) (by decide)

/-- Claim C5.  Three parts.
First: the matching loop terminates within sum of preference-list lengths
plus number of stacked free cases iterations — with that much fuel the loop
always completes (each iteration consumes one unit of fuel, and an iteration
either pops a preference entry, charged to the sum of list lengths, or
terminally drops a case with an empty list, charged to the stack length).
Second: a full run always completes, and every case of the dictionary ends
either matched (it occurs as a value of the final match dictionary) or with
its preference list exhausted (its final working list is empty).
Third: a case that is neither on the free stack nor matched never reappears:
in particular a case dropped with an empty preference list is dropped
permanently and is never re-enqueued or matched. -/
theorem smLoop_termination_bound :
    (∀ (c : String → Nat) (fuel : Nat) (dict : List (String × List String))
        (free : List String) (m : List (String × String)),
        sumLens dict + free.length ≤ fuel → (smLoop c fuel dict free m).isSome) ∧
    (∀ (d : List (String × List String)) (c : String → Nat),
        ∃ res, sm_run d c = some res ∧
          ∀ x ∈ d.map Prod.fst, (∃ e, (e, x) ∈ res.1) ∨ lookupL x res.2 = some []) ∧
    (∀ (c : String → Nat) (fuel : Nat) (dict : List (String × List String))
        (free : List String) (m : List (String × String)) res (y : String),
        smLoop c fuel dict free m = some res →
        y ∉ free → (∀ e, (e, y) ∉ m) → ∀ e, (e, y) ∉ res.1) := by
  refine ⟨smLoop_isSome, ?_, fun c fuel dict free m res y hres hf hm =>
    smLoop_out c y fuel dict free m res hres hf hm⟩
  intro d c
  have hs : (sm_run d c).isSome := by
    unfold sm_run
    exact smLoop_isSome c _ _ _ _ (by simp)
  rcases hres : sm_run d c with _ | res
  · rw [hres] at hs
    cases hs
  · refine ⟨res, rfl, ?_⟩
    intro x hx
    unfold sm_run at hres
    refine smLoop_moe c x _ _ _ _ res hres ?_ ?_
    · exact (lookupL_isSome x d).2 hx
    · refine Or.inl ?_
      rw [List.mem_reverse]
      exact ((order_keys_perm d).mem_iff).2 hx

/-- Witness for claim C5 at concrete inputs: the loop with fuel equal to the
bound completes, and a case z that is out of the system stays unmatched. -/
theorem smLoop_termination_bound_witness :
    (smLoop (fun _ => 1) 3 [("c", ["x", "y"])] ["c"] []).isSome ∧
    (∀ e, (e, "z") ∉ ([("y", "c")] : List (String × String))) :=
  ⟨smLoop_termination_bound.1 (fun _ => 1) 3 [("c", ["x", "y"])] ["c"] [] (by decide),
   smLoop_termination_bound.2.2 (fun _ => 1) 3 [("c", ["x", "y"])] ["c"] []
     ([("y", "c")], [("c", ["x"])]) "z" (by decide) (by decide)
     (fun e h => (List.not_mem_nil (e, "z")) h)⟩

/-- Claim C8.  order_keys sorts the case identifiers descending by the size
of their compatible-control list, ties broken by stable input order (the
earlier dictionary entry stays earlier), the result is a permutation of the
keys, and since the matching loop consumes it as a stack popped from the end
(the head of the reversed list in this embedding), the first case processed
is one with the fewest compatible controls. -/
theorem order_keys_descending_stable (d : List (String × List String))
    (hd : (d.map Prod.fst).Nodup) :
    (order_keys d).Perm (d.map Prod.fst) ∧
    (order_keys d).Pairwise (fun a b =>
      lenD d b < lenD d a ∨ (lenD d a = lenD d b ∧
        (d.map Prod.fst).indexOf a < (d.map Prod.fst).indexOf b)) ∧
    ∀ k ∈ d.map Prod.fst,
      lenD d (((order_keys d).reverse).headD "") ≤ lenD d k := by
  refine ⟨order_keys_perm d, order_keys_sorted_stable d hd, ?_⟩
  intro k hk
  have hk' : k ∈ order_keys d := ((order_keys_perm d).mem_iff).2 hk
  rw [headD_reverse]
  rcases pairwise_getLastD _ (order_keys d) "" (order_keys_sorted d) k hk' with he | hle
  · rw [he]
  · exact hle

/-- Witness for claim C8 at a concrete input with a tie: a and b both have
one compatible control, c has two; the order is c, a, b (descending, tie in
input order) and the first case popped (a or b side of the stack) has the
minimal count. -/
theorem order_keys_descending_stable_witness :
    (order_keys [("a", ["1"]), ("b", ["1"]), ("c", ["1", "2"])]).Perm ["a", "b", "c"] ∧
    lenD [("a", ["1"]), ("b", ["1"]), ("c", ["1", "2"])]
        (((order_keys [("a", ["1"]), ("b", ["1"]), ("c", ["1", "2"])]).reverse).headD "") ≤
      lenD [("a", ["1"]), ("b", ["1"]), ("c", ["1", "2"])] "c" :=
  ⟨(order_keys_descending_stable [("a", ["1"]), ("b", ["1"]), ("c", ["1", "2"])]
      (by decide)).1,
   (order_keys_descending_stable [("a", ["1"]), ("b", ["1"]), ("c", ["1", "2"])]
      (by decide)).2.2 "c" (by decide)⟩

/-- Claim C10.  The pref_counts_cont argument of stable_marriage is dead: the
function body never reads it (the displacement comparison of source line 300
uses pref_counts_case only), so two runs with the same preference dictionary
and the same case-count map but arbitrary different control-count maps return
the identical one-to-one match dictionary. -/
theorem stable_marriage_ignores_control_counts
    (dictionary_pref : List (String × List String))
    (f g pref_counts_case : String → Nat) :
    stable_marriage dictionary_pref f pref_counts_case =
      stable_marriage dictionary_pref g pref_counts_case := rfl

/-! ### match_samples lemmas and claims -/

theorem lookupL_orderDict (x : String) (f : String → Nat) :
    ∀ d : List (String × List String),
      lookupL x (orderDict d f) = (lookupL x d).map (orderList f)
  | [] => rfl
  | p :: rest => by
    by_cases hp : p.1 = x
    · simp [orderDict, lookupL, hp]
    · simp only [orderDict, List.map_cons, lookupL, hp, if_false]
      have := lookupL_orderDict x f rest
      simpa [orderDict] using this

theorem buildCaseDict_mem (controls : List Record) (conds : List Cond) :
    ∀ (cases : List Record) (d : List (String × List String)),
      buildCaseDict cases controls conds = .ok d →
      ∀ p ∈ d, ∃ caseR ∈ cases, caseR.id = p.1 ∧
        ∃ pool, filterConds caseR.vals conds controls = .ok pool ∧
          p.2 = pool.map Record.id
  | [], d, h, p, hp => by
    simp only [buildCaseDict] at h
    cases h
    cases hp
  | c :: rest, d, h, p, hp => by
    simp only [buildCaseDict] at h
    rcases hf : filterConds c.vals conds controls with e | pool
    · rw [hf] at h
      cases h
    · rw [hf] at h
      rcases hr : buildCaseDict rest controls conds with e | drest
      · rw [hr] at h
        cases h
      · rw [hr] at h
        cases h
        rcases List.mem_cons.1 hp with rfl | hp'
        · exact ⟨c, List.mem_cons_self _ _, rfl, pool, hf, rfl⟩
        · obtain ⟨cr, hcr, hid, pool', hfc, hl⟩ :=
            buildCaseDict_mem controls conds rest drest hr p hp'
          exact ⟨cr, List.mem_cons_of_mem _ hcr, hid, pool', hfc, hl⟩

theorem filterConds_cons (caseRow : String → Value) (c : Cond) (rest : List Cond)
    (pool : List Record) :
    filterConds caseRow (c :: rest) pool =
      match condStep caseRow pool c with
      | .error e => .error e
      | .ok pool' => filterConds caseRow rest pool' := by
  rcases h : condStep caseRow pool c with e | pool'
  · simp only [filterConds, List.foldlM_cons, h]
    rfl
  · simp only [filterConds, List.foldlM_cons, h]
    rfl

/-- Claim C4.  Whenever match_samples completes with an assignment, every
pair (control k, case c) of it is sanctioned by the compatibility filter:
the case record exists among the input cases and k is the identifier of one
of the controls surviving all the match conditions for that case over the
full control pool — the matcher never invents a pair outside the
compatibility map. -/
theorem match_samples_compat_containment (cases controls : List Record)
    (conds : List Cond) (a : List (String × String)) (k c : String)
    (hok : match_samples cases controls conds = .ok a) (hmem : (k, c) ∈ a) :
    ∃ caseR ∈ cases, caseR.id = c ∧
      ∃ pool, filterConds caseR.vals conds controls = .ok pool ∧
        k ∈ pool.map Record.id := by
  unfold match_samples at hok
  rcases hb : buildCaseDict cases controls conds with e | d
  · rw [hb] at hok
    cases hok
  · rw [hb] at hok
    have hok' : Except.ok (ε := MErr)
        (stable_marriage (orderDict d (controlCnt d)) (controlCnt d) (caseCnt d)) =
        .ok a := hok
    have ha := Except.ok.inj hok'
    rw [← ha] at hmem
    unfold stable_marriage at hmem
    rcases hres : sm_run (orderDict d (controlCnt d)) (caseCnt d) with _ | res
    · rw [hres] at hmem
      simp at hmem
    · rw [hres] at hmem
      simp only [Option.map_some', Option.getD_some] at hmem
      unfold sm_run at hres
      have hP := smLoop_mem_P (caseCnt d)
        (fun e key => ∃ l, lookupL key (orderDict d (controlCnt d)) = some l ∧ e ∈ l)
        _ _ _ _ res hres (fun e key h => by cases h)
        (fun key l hl e he => ⟨l, hl, he⟩) k c hmem
      obtain ⟨l, hl, hkl⟩ := hP
      rw [lookupL_orderDict] at hl
      rcases hc : lookupL c d with _ | l₀
      · rw [hc] at hl
        cases hl
      · rw [hc] at hl
        have hl' := Option.some.inj hl
        rw [← hl'] at hkl
        have hk₀ : k ∈ l₀ := ((orderList_perm (controlCnt d) l₀).mem_iff).1 hkl
        have hpd : (c, l₀) ∈ d := lookupL_mem c l₀ d hc
        obtain ⟨cr, hcr, hid, pool, hfc, hlp⟩ :=
          buildCaseDict_mem controls conds cases d hb (c, l₀) hpd
        exact ⟨cr, hcr, hid, pool, hfc, by rw [← hlp]; exact hk₀⟩

/-- Witness for claim C4 at a concrete input with one case and one matching
control under an exact condition. -/
theorem match_samples_compat_containment_witness :
    ∃ caseR ∈ [(⟨"A", fun _ => Value.str "m"⟩ : Record)], caseR.id = "A" ∧
      ∃ pool, filterConds caseR.vals [Cond.exact "sex"]
          [(⟨"X", fun _ => Value.str "m"⟩ : Record)] = .ok pool ∧
        "X" ∈ pool.map Record.id :=
  match_samples_compat_containment [⟨"A", fun _ => .str "m"⟩]
    [⟨"X", fun _ => .str "m"⟩] [.exact "sex"] [("X", "A")] "X" "A" rfl (by simp)

/-- Claim C6.  Under a range condition on column col with numeric case value
cv and numeric tolerance t, whenever the condition step succeeds (all control
values of the column parse), a control of the current pool survives the step
if and only if its numeric value in col lies in the closed interval from
cv - t to cv + t.  In particular, with case value 50 and tolerance 5 the
controls with ages 45 and 54 are kept while 44 and 56 are dropped. -/
theorem range_condition_interval :
    (∀ (caseRow : String → Value) (col : String) (tolV : Value) (cv t : ℚ)
        (pool kept : List Record),
        toNum (caseRow col) = some cv → toNum tolV = some t →
        condStep caseRow pool (.range col tolV) = .ok kept →
        ∀ r ∈ pool, ∀ v, toNum (r.vals col) = some v →
          (r ∈ kept ↔ cv - t ≤ v ∧ v ≤ cv + t)) ∧
    condStep (fun _ => Value.num 50)
      [⟨"r44", fun _ => Value.num 44⟩, ⟨"r45", fun _ => Value.num 45⟩,
       ⟨"r54", fun _ => Value.num 54⟩, ⟨"r56", fun _ => Value.num 56⟩]
      (.range "age" (.num 5)) =
    .ok [⟨"r45", fun _ => Value.num 45⟩, ⟨"r54", fun _ => Value.num 54⟩] := by
  constructor
  · intro caseRow col tolV cv t pool kept hcase htol hstep r hr v hv
    rcases hall : pool.all fun r => (toNum (r.vals col)).isSome with _ | _
    · simp only [condStep, hcase, htol, hall, Bool.false_eq_true, if_false] at hstep
      exact Except.noConfusion hstep
    · simp only [condStep, hcase, htol, hall, if_true, Except.ok.injEq] at hstep
      rw [← hstep, List.mem_filter, hv]
      simp [hr]
  · simp only [condStep, toNum, List.all_cons, List.all_nil, Option.isSome_some,
      Bool.and_self, if_true]
    norm_num [List.filter]

/-- Witness for claim C6: the general interval characterisation applied at
the concrete boundary inputs of the claim, ages 45 and 56 against case value
50 and tolerance 5. -/
theorem range_condition_interval_witness :
    ((⟨"r45", fun _ => Value.num 45⟩ : Record) ∈
        ([⟨"r45", fun _ => Value.num 45⟩, ⟨"r54", fun _ => Value.num 54⟩] : List Record) ↔
      (50 : ℚ) - 5 ≤ 45 ∧ (45 : ℚ) ≤ 50 + 5) ∧
    ((⟨"r56", fun _ => Value.num 56⟩ : Record) ∈
        ([⟨"r45", fun _ => Value.num 45⟩, ⟨"r54", fun _ => Value.num 54⟩] : List Record) ↔
      (50 : ℚ) - 5 ≤ 56 ∧ (56 : ℚ) ≤ 50 + 5) :=
  ⟨range_condition_interval.1 (fun _ => .num 50) "age" (.num 5) 50 5
      [⟨"r44", fun _ => .num 44⟩, ⟨"r45", fun _ => .num 45⟩,
       ⟨"r54", fun _ => .num 54⟩, ⟨"r56", fun _ => .num 56⟩]
      [⟨"r45", fun _ => .num 45⟩, ⟨"r54", fun _ => .num 54⟩]
      rfl rfl range_condition_interval.2
      ⟨"r45", fun _ => .num 45⟩ (by simp) 45 rfl,
   range_condition_interval.1 (fun _ => .num 50) "age" (.num 5) 50 5
      [⟨"r44", fun _ => .num 44⟩, ⟨"r45", fun _ => .num 45⟩,
       ⟨"r54", fun _ => .num 54⟩, ⟨"r56", fun _ => .num 56⟩]
      [⟨"r45", fun _ => .num 45⟩, ⟨"r54", fun _ => .num 54⟩]
      rfl rfl range_condition_interval.2
      ⟨"r56", fun _ => .num 56⟩ (by simp) 56 rfl⟩

/-- Claim C7.  Four parts.
First: whenever the condition list contains a range condition whose case
value or tolerance does not parse as a number, the compatibility filtering of
that case aborts with a fatal error, for every control pool (the failure is
never downgraded to a per-row skip).
Second: a control whose column value does not parse under an active range
condition likewise aborts the filtering of the pool that still contains it.
Third: whenever any case's filtering aborts, the whole matching run returns a
fatal error and no assignment, complete or partial, is produced.
Fourth, composing the first and third parts: if any range condition of the
run references a case value or tolerance that does not parse as a number,
match_samples returns a fatal error and no assignment. -/
theorem range_parse_failure_aborts :
    (∀ (caseRow : String → Value) (conds : List Cond) (pool : List Record)
        (pre post : List Cond) (col : String) (tolV : Value),
        conds = pre ++ .range col tolV :: post →
        toNum (caseRow col) = none ∨ toNum tolV = none →
        ∃ e, filterConds caseRow conds pool = .error e) ∧
    (∀ (caseRow : String → Value) (col : String) (tolV : Value) (rest : List Cond)
        (pool : List Record) (r : Record), r ∈ pool → toNum (r.vals col) = none →
        ∃ e, filterConds caseRow (.range col tolV :: rest) pool = .error e) ∧
    (∀ (cases controls : List Record) (conds : List Cond),
        (∃ c ∈ cases, ∃ e, filterConds c.vals conds controls = .error e) →
        ∃ e, match_samples cases controls conds = .error e) ∧
    (∀ (cases controls : List Record) (conds : List Cond) (pre post : List Cond)
        (col : String) (tolV : Value) (c : Record), c ∈ cases →
        conds = pre ++ .range col tolV :: post →
        toNum (c.vals col) = none ∨ toNum tolV = none →
        ∃ e, match_samples cases controls conds = .error e) := by
  have h1 : ∀ (caseRow : String → Value) (conds : List Cond) (pool : List Record)
      (pre post : List Cond) (col : String) (tolV : Value),
      conds = pre ++ .range col tolV :: post →
      toNum (caseRow col) = none ∨ toNum tolV = none →
      ∃ e, filterConds caseRow conds pool = .error e := by
    intro caseRow conds pool pre post col tolV hconds hbad
    subst hconds
    induction pre generalizing pool with
    | nil =>
      have hstep : ∃ e, condStep caseRow pool (.range col tolV) = .error e := by
        rcases hc : toNum (caseRow col) with _ | cv
        · exact ⟨.invalidNumber (caseRow col), by simp [condStep, hc]⟩
        · rcases hbad with hb | hb
          · rw [hc] at hb
            cases hb
          · exact ⟨.invalidNumber tolV, by simp [condStep, hc, hb]⟩
      obtain ⟨e, he⟩ := hstep
      exact ⟨e, by rw [List.nil_append, filterConds_cons, he]⟩
    | cons c0 pre' ih =>
      rw [List.cons_append, filterConds_cons]
      rcases hstep : condStep caseRow pool c0 with e | pool'
      · exact ⟨e, rfl⟩
      · exact ih pool'
  have h3 : ∀ (cases controls : List Record) (conds : List Cond),
      (∃ c ∈ cases, ∃ e, filterConds c.vals conds controls = .error e) →
      ∃ e, match_samples cases controls conds = .error e := by
    intro cases controls conds hex
    have hb : ∀ cs : List Record,
        (∃ c ∈ cs, ∃ e, filterConds c.vals conds controls = .error e) →
        ∃ e, buildCaseDict cs controls conds = .error e := by
      intro cs
      induction cs with
      | nil =>
        rintro ⟨c, hc, -⟩
        cases hc
      | cons c0 rest ih =>
        rintro ⟨c, hc, e, he⟩
        rcases List.mem_cons.1 hc with rfl | hc
        · exact ⟨e, by simp [buildCaseDict, he]⟩
        · rcases hf : filterConds c0.vals conds controls with e0 | pool
          · exact ⟨e0, by simp [buildCaseDict, hf]⟩
          · obtain ⟨e', he'⟩ := ih ⟨c, hc, e, he⟩
            exact ⟨e', by simp [buildCaseDict, hf, he']⟩
    obtain ⟨e', he'⟩ := hb cases hex
    refine ⟨e', ?_⟩
    unfold match_samples
    rw [he']
    rfl
  refine ⟨h1, ?_, h3, ?_⟩
  · intro caseRow col tolV rest pool r hr hnone
    have hstep : ∃ e, condStep caseRow pool (.range col tolV) = .error e := by
      rcases hc : toNum (caseRow col) with _ | cv
      · exact ⟨.invalidNumber (caseRow col), by simp [condStep, hc]⟩
      · rcases ht : toNum tolV with _ | t
        · exact ⟨.invalidNumber tolV, by simp [condStep, hc, ht]⟩
        · refine ⟨.columnType col, ?_⟩
          have hall : (pool.all fun r => (toNum (r.vals col)).isSome) = false := by
            rw [List.all_eq_false]
            exact ⟨r, hr, by simp [hnone]⟩
          simp [condStep, hc, ht, hall]
    obtain ⟨e, he⟩ := hstep
    exact ⟨e, by rw [filterConds_cons, he]⟩
  · intro cases controls conds pre post col tolV c hc hconds hbad
    exact h3 cases controls conds
      ⟨c, hc, h1 c.vals conds controls pre post col tolV hconds hbad⟩

/-- Witness for claim C7: a case with non-numeric value NA in a range column
makes match_samples return a fatal error. -/
theorem range_parse_failure_aborts_witness :
    ∃ e, match_samples [(⟨"caseA", fun _ => Value.str "NA"⟩ : Record)] []
      [Cond.range "age" (.num 5)] = .error e :=
  range_parse_failure_aborts.2.2.1 [⟨"caseA", fun _ => .str "NA"⟩] []
    [.range "age" (.num 5)]
    ⟨⟨"caseA", fun _ => .str "NA"⟩, by simp, .invalidNumber (.str "NA"), by rfl⟩

/-- Claim C9, counterexample.  The claim says that after a matching run the
ranked preference lists held by the caller are unchanged because the matcher
works on a private copy.  But the copy of source line 419 is a Python
dict.copy(), a shallow copy: the key table is new, the list objects are
shared.  Concretely, the caller holds the ranked dictionary entry (c, cell 0)
and cell 0 contains the ranked list of one element x; after stable_marriage
runs on the shallow copy, cell 0 — still referenced by the caller's ranked
dictionary — has become the empty list: the caller's ranked preference list
was destructively consumed, contradicting the claim. -/
theorem shallow_copy_mutates_caller_cex :
    stable_marriageH (dict_copy [("c", 0)]) [["x"]] (fun _ => 1) (fun _ => 1) =
      some ([("x", "c")], [[]]) ∧
    getCell [[]] 0 ≠ getCell [["x"]] 0 :=
  ⟨rfl, by decide⟩

/-- Claim C9, amended.  stable_marriage receives a shallow copy of the ranked
preference dictionary: the key table is private but the ranked lists are the
caller's own list objects, and the destructive pops write through them.
Precisely, for a caller dictionary d of distinct list references into heap h,
running the matcher on dict_copy d returns the same match dictionary as the
value-level loop, and the lists the caller sees through d afterwards are
exactly the matcher's final consumed working lists — not the unchanged
pre-run lists the claim asserted.  (The un-ranked pre-orderDict map of
match_samples survives only because orderDict allocates fresh lists and line
420 of the source restores that older map.) -/
theorem stable_marriageH_writes_through (d : HDict) (h : Heap)
    (pref_counts_cont pref_counts_case : String → Nat)
    (hnod : (d.map Prod.snd).Nodup) :
    (stable_marriageH (dict_copy d) h pref_counts_cont pref_counts_case).map
        (fun res => (res.1, hView d res.2)) =
      sm_run (hView d h) pref_counts_case := by
  unfold stable_marriageH dict_copy sm_run
  exact (smLoopH_sim pref_counts_case d hnod _ h _ []).symm

/-- Witness for the amended claim C9 at the concrete one-case heap. -/
theorem stable_marriageH_writes_through_witness :
    (stable_marriageH (dict_copy [("c", 0)]) [["x"]] (fun _ => 1) (fun _ => 1)).map
        (fun res => (res.1, hView [("c", 0)] res.2)) =
      sm_run (hView [("c", 0)] [["x"]]) (fun _ => 1) :=
  stable_marriageH_writes_through [("c", 0)] [["x"]] (fun _ => 1) (fun _ => 1) (by decide)
